import Mathlib

/-!
Verification of the scalar-arithmetic core (package ecmath, file scalar.go)
of an Ed25519-style signature library.

A scalar is a 32-byte little-endian value; we embed bytes as natural numbers
below 256 and a Scalar as a list of 32 such bytes.  The arithmetic engine
routines ScMulAdd and ScReduce live in an internal package that is not part
of the sources at hand; they are modelled from the specification, which
defines them as canonical modular multiply-add and wide reduction modulo the
group order L.  Everything else is translated directly from scalar.go.
-/

namespace ecmath

/-- The subgroup order L = 2^252 + 27742317777372353535851937790883648493. -/
def L : Nat := 2 ^ 252 + 27742317777372353535851937790883648493

/-- The little-endian integer value of a byte list. -/
def fromLE : List Nat → Nat
  | [] => 0
  | b :: bs => b + 256 * fromLE bs

/-- The k-byte little-endian encoding of n (truncating to n mod 256^k). -/
def toLE : Nat → Nat → List Nat
  | 0, _ => []
  | k + 1, n => n % 256 :: toLE k (n / 256)

/-- A well-formed scalar: 32 bytes, each below 256. -/
def ScalarOK (s : List Nat) : Prop := s.length = 32 ∧ ∀ b ∈ s, b < 256

instance (s : List Nat) : Decidable (ScalarOK s) := by
  unfold ScalarOK; infer_instance

/-- Zero is the number 0: the all-zero 32-byte array (Go zero value). -/
def Zero : List Nat := List.replicate 32 0

/-- One is the number 1: Scalar{1}. -/
def One : List Nat := 1 :: List.replicate 31 0

/-- Cofactor is the number 8: Scalar{8}. -/
def Cofactor : List Nat := 8 :: List.replicate 31 0

/-- NegOne is the number -1 mod L, as the byte literal in scalar.go. -/
def NegOne : List Nat :=
  [0xec, 0xd3, 0xf5, 0x5c, 0x1a, 0x63, 0x12, 0x58,
   0xd6, 0x9c, 0xf7, 0xa2, 0xde, 0xf9, 0xde, 0x14,
   0x00, 0x00, 0x00, 0x00, 0x00, 0x00, 0x00, 0x00,
   0x00, 0x00, 0x00, 0x00, 0x00, 0x00, 0x00, 0x10]

/-- The byte literal for L in scalar.go. -/
def Lbytes : List Nat :=
  [0xed, 0xd3, 0xf5, 0x5c, 0x1a, 0x63, 0x12, 0x58,
   0xd6, 0x9c, 0xf7, 0xa2, 0xde, 0xf9, 0xde, 0x14,
   0x00, 0x00, 0x00, 0x00, 0x00, 0x00, 0x00, 0x00,
   0x00, 0x00, 0x00, 0x00, 0x00, 0x00, 0x00, 0x10]

/-- Modelled from the spec: edwards25519.ScMulAdd, the internal limb-arithmetic
routine called by Scalar.MulAdd, is not among the sources at hand.  Per the
spec it treats the three 32-byte inputs as 256-bit unsigned integers, computes
a*b + c, reduces modulo L and returns the canonical representative in [0, L). -/
def ScMulAdd (a b c : List Nat) : List Nat :=
  toLE 32 ((fromLE a * fromLE b + fromLE c) % L)

/-- Modelled from the spec: edwards25519.ScReduce, the internal wide-reduction
routine called by Scalar.Reduce, is not among the sources at hand.  Per the
spec it reduces a 512-bit little-endian input to its canonical residue mod L. -/
def ScReduce (w : List Nat) : List Nat :=
  toLE 32 (fromLE w % L)

/-- MulAdd computes ab+c (mod L): it delegates to edwards25519.ScMulAdd. -/
def MulAdd (a b c : List Nat) : List Nat := ScMulAdd a b c

/-- Add computes x+y (mod L): z.MulAdd(x, &One, y). -/
def Add (x y : List Nat) : List Nat := MulAdd x One y

/-- Mul computes x*y (mod L): z.MulAdd(x, y, &Zero). -/
def Mul (x y : List Nat) : List Nat := MulAdd x y Zero

/-- Sub computes x-y (mod L): z.MulAdd(y, &NegOne, x). -/
def Sub (x y : List Nat) : List Nat := MulAdd y NegOne x

/-- Neg negates x (mod L): z.MulAdd(x, &NegOne, &Zero). -/
def Neg (x : List Nat) : List Nat := MulAdd x NegOne Zero

/-- Reduce takes a 512-bit scalar and reduces it mod L via edwards25519.ScReduce. -/
def Reduce (w : List Nat) : List Nat := ScReduce w

/-- SetUint64: zero the scalar, then PutUint64 the value into the first 8 bytes. -/
def SetUint64 (n : Nat) : List Nat := toLE 8 n ++ List.replicate 24 0

/-- Go int64 negation -n, wrapping in two's complement (relevant only at -2^63). -/
def int64Neg (n : Int) : Int := (-n + 2 ^ 63) % 2 ^ 64 - 2 ^ 63

/-- Go conversion uint64(m) of an int64 value m. -/
def uint64OfInt64 (m : Int) : Nat := (m % 2 ^ 64).toNat

/-- SetInt64: if n >= 0 then SetUint64(uint64(n)) else SetUint64(uint64(-n)). -/
def SetInt64 (n : Int) : List Nat :=
  if 0 ≤ n then SetUint64 (uint64OfInt64 n)
  else SetUint64 (uint64OfInt64 (int64Neg n))

/-- subtle.ConstantTimeByteEq(x, y): int((uint32(x^y) - 1) >> 31), with the
uint32 subtraction wrapping modulo 2^32. -/
def constantTimeByteEq (x y : Nat) : Nat :=
  (((x ^^^ y) + (2 ^ 32 - 1)) % 2 ^ 32) >>> 31

/-- subtle.ConstantTimeCompare(x, y): 0 on length mismatch; otherwise fold
v |= x[i] ^ y[i] over all positions and return ConstantTimeByteEq(v, 0). -/
def constantTimeCompare (x y : List Nat) : Nat :=
  if x.length = y.length then
    constantTimeByteEq
      ((List.zipWith (fun a b => a ^^^ b) x y).foldl (fun v w => v ||| w) 0) 0
  else 0

/-- Equal: subtle.ConstantTimeCompare(x[:], z[:]) == 1. -/
def Equal (z x : List Nat) : Bool := constantTimeCompare x z = 1

/-- Prune: z[0] &= 248; z[31] &= 127; z[31] |= 64, in place. -/
def Prune (z : List Nat) : List Nat :=
  let z1 := z.set 0 (z.getD 0 0 &&& 248)
  let z2 := z1.set 31 (z1.getD 31 0 &&& 127)
  z2.set 31 (z2.getD 31 0 ||| 64)

theorem toLE_length (k n : Nat) : (toLE k n).length = k := by
  induction k generalizing n with
  | zero => rfl
  | succ k ih => simp [toLE, ih]

theorem fromLE_toLE (k n : Nat) : fromLE (toLE k n) = n % 256 ^ k := by
  induction k generalizing n with
  | zero => simp [toLE, fromLE, Nat.mod_one]
  | succ k ih => rw [toLE, fromLE, ih, pow_succ', Nat.mod_mul]

theorem fromLE_lt (bs : List Nat) (h : ∀ b ∈ bs, b < 256) :
    fromLE bs < 256 ^ bs.length := by
  induction bs with
  | nil => simp [fromLE]
  | cons b bs ih =>
    have hb : b < 256 := h b (List.mem_cons_self b bs)
    have hrest : fromLE bs < 256 ^ bs.length :=
      ih fun x hx => h x (List.mem_cons_of_mem b hx)
    calc fromLE (b :: bs) = b + 256 * fromLE bs := rfl
      _ < 256 + 256 * fromLE bs := by omega
      _ ≤ 256 + 256 * (256 ^ bs.length - 1) := by
          have : fromLE bs ≤ 256 ^ bs.length - 1 := by omega
          omega
      _ ≤ 256 ^ (b :: bs).length := by
          have h1 : 1 ≤ 256 ^ bs.length := Nat.one_le_pow _ _ (by omega)
          simp only [List.length_cons, pow_succ]
          omega

theorem toLE_fromLE (bs : List Nat) (h : ∀ b ∈ bs, b < 256) :
    toLE bs.length (fromLE bs) = bs := by
  induction bs with
  | nil => rfl
  | cons b bs ih =>
    have hb : b < 256 := h b (List.mem_cons_self b bs)
    have hrest := ih fun x hx => h x (List.mem_cons_of_mem b hx)
    simp only [List.length_cons, toLE, fromLE]
    have hmod : (b + 256 * fromLE bs) % 256 = b := by
      rw [Nat.add_mul_mod_self_left]; exact Nat.mod_eq_of_lt hb
    have hdiv : (b + 256 * fromLE bs) / 256 = fromLE bs := by
      rw [Nat.add_mul_div_left _ _ (by omega), Nat.div_eq_of_lt hb]; omega
    rw [hmod, hdiv, hrest]

theorem fromLE_append (xs ys : List Nat) :
    fromLE (xs ++ ys) = fromLE xs + 256 ^ xs.length * fromLE ys := by
  induction xs with
  | nil => simp [fromLE]
  | cons b bs ih =>
    simp only [List.cons_append, List.append_eq, fromLE, ih, List.length_cons]
    ring

theorem fromLE_One : fromLE One = 1 := by decide

theorem fromLE_Zero : fromLE Zero = 0 := by decide

theorem L_pos : 0 < L := by decide

theorem L_lt_two_pow_256 : L < 256 ^ 32 := by decide

theorem fromLE_NegOne : fromLE NegOne = L - 1 := by decide

theorem fromLE_Lbytes : fromLE Lbytes = L := by decide

theorem fromLE_MulAdd (a b c : List Nat) :
    fromLE (MulAdd a b c) = (fromLE a * fromLE b + fromLE c) % L := by
  have hlt : (fromLE a * fromLE b + fromLE c) % L < 256 ^ 32 :=
    lt_trans (Nat.mod_lt _ L_pos) L_lt_two_pow_256
  rw [MulAdd, ScMulAdd, fromLE_toLE, Nat.mod_eq_of_lt hlt]

theorem MulAdd_lt_L (a b c : List Nat) : fromLE (MulAdd a b c) < L := by
  rw [fromLE_MulAdd]; exact Nat.mod_lt _ L_pos

theorem fromLE_SetUint64 (n : Nat) : fromLE (SetUint64 n) = n % 2 ^ 64 := by
  rw [SetUint64, fromLE_append, fromLE_toLE, toLE_length]
  have h0 : fromLE (List.replicate 24 0) = 0 := by decide
  rw [h0]
  norm_num

/-- Claim C1: MulAdd(a, b, c) returns the canonical representative of
a*b + c modulo L, a value in [0, L), and MulAdd(a,b,c) = Add(Mul(a,b), c). -/
theorem C1_mulAdd_canonical (a b c : List Nat) :
    fromLE (MulAdd a b c) = (fromLE a * fromLE b + fromLE c) % L ∧
    fromLE (MulAdd a b c) < L ∧
    MulAdd a b c = Add (Mul a b) c := by
  refine ⟨fromLE_MulAdd a b c, MulAdd_lt_L a b c, ?_⟩
  have h1 : fromLE (Mul a b) = fromLE a * fromLE b % L := by
    rw [Mul, fromLE_MulAdd, fromLE_Zero, Nat.add_zero]
  show ScMulAdd a b c = ScMulAdd (Mul a b) One c
  simp only [ScMulAdd]
  rw [h1, fromLE_One, Nat.mul_one, Nat.mod_add_mod]

/-- Claim C2: for every 64-byte little-endian input w, Reduce(w) is in [0, L)
and equals the value of w mod L exactly. -/
theorem C2_reduce_exact (w : List Nat) (_hlen : w.length = 64) (_hb : ∀ b ∈ w, b < 256) :
    fromLE (Reduce w) = fromLE w % L ∧ fromLE (Reduce w) < L := by
  have hlt : fromLE w % L < 256 ^ 32 := lt_trans (Nat.mod_lt _ L_pos) L_lt_two_pow_256
  rw [Reduce, ScReduce, fromLE_toLE, Nat.mod_eq_of_lt hlt]
  exact ⟨rfl, Nat.mod_lt _ L_pos⟩

theorem C2_reduce_exact_witness :
    (List.replicate 64 255).length = 64 ∧ (∀ b ∈ List.replicate 64 255, b < 256) ∧
    (fromLE (Reduce (List.replicate 64 255)) = fromLE (List.replicate 64 255) % L ∧
     fromLE (Reduce (List.replicate 64 255)) < L) :=
  ⟨by decide, by decide, C2_reduce_exact (List.replicate 64 255) (by decide) (by decide)⟩

/-- Claim C3: Sub(x, y) equals x - y mod L, Sub(x,y) = Add(x, Neg(y)), and Sub
is realized as MulAdd(y, NegOne, x). -/
theorem C3_sub (x y : List Nat) :
    (fromLE (Sub x y) : Int) = ((fromLE x : Int) - fromLE y) % (L : Int) ∧
    Sub x y = Add x (Neg y) ∧
    Sub x y = MulAdd y NegOne x := by
  refine ⟨?_, ?_, rfl⟩
  · have h1 : fromLE (Sub x y) = (fromLE y * (L - 1) + fromLE x) % L := by
      rw [Sub, fromLE_MulAdd, fromLE_NegOne]
    rw [h1, Int.natCast_mod]
    have hL1 : ((L - 1 : Nat) : Int) = (L : Int) - 1 := by
      have h := L_pos; omega
    push_cast [hL1]
    have h3 : (fromLE y : Int) * ((L : Int) - 1) + (fromLE x : Int)
        = ((fromLE x : Int) - (fromLE y : Int)) + (fromLE y : Int) * (L : Int) := by ring
    rw [h3, Int.add_mul_emod_self]
  · have hneg : fromLE (Neg y) = fromLE y * (L - 1) % L := by
      rw [Neg, fromLE_MulAdd, fromLE_NegOne, fromLE_Zero, Nat.add_zero]
    show ScMulAdd y NegOne x = ScMulAdd x One (Neg y)
    simp only [ScMulAdd]
    rw [hneg, fromLE_One, fromLE_NegOne, Nat.mul_one, Nat.add_mod_mod, Nat.add_comm]

/-- Claim C4: the NegOne byte literal equals L - 1 as a little-endian integer,
and Add(NegOne, One) = Zero. -/
theorem C4_negOne_literal : fromLE NegOne = L - 1 ∧ Add NegOne One = Zero := by
  constructor
  · decide
  · decide

/-- Claim C6: SetInt64(n) agrees with SetUint64(n) for n ≥ 0, and for n < 0 it
encodes the magnitude of n (not L + n), including at n = -2^63. -/
theorem C6_setInt64 (n : Int) (hlo : -(2 ^ 63) ≤ n) (hhi : n < 2 ^ 63) :
    (0 ≤ n → SetInt64 n = SetUint64 n.toNat) ∧
    (n < 0 → SetInt64 n = SetUint64 n.natAbs ∧ fromLE (SetInt64 n) = n.natAbs) := by
  constructor
  · intro h
    rw [SetInt64, if_pos h]
    congr 1
    rw [uint64OfInt64]
    omega
  · intro h
    have heq : SetInt64 n = SetUint64 n.natAbs := by
      rw [SetInt64, if_neg (by omega)]
      congr 1
      rw [uint64OfInt64, int64Neg]
      omega
    refine ⟨heq, ?_⟩
    rw [heq, fromLE_SetUint64]
    omega

theorem C6_setInt64_witness :
    -(2 ^ 63) ≤ (-(2 ^ 63) : Int) ∧ (-(2 ^ 63) : Int) < 2 ^ 63 ∧
    ((0 ≤ (-(2 ^ 63) : Int) → SetInt64 (-(2 ^ 63)) = SetUint64 (-(2 ^ 63) : Int).toNat) ∧
     ((-(2 ^ 63) : Int) < 0 → SetInt64 (-(2 ^ 63)) = SetUint64 (-(2 ^ 63) : Int).natAbs ∧
       fromLE (SetInt64 (-(2 ^ 63))) = (-(2 ^ 63) : Int).natAbs)) :=
  ⟨by decide, by decide, C6_setInt64 (-(2 ^ 63)) (by decide) (by decide)⟩

/-- Claim C9: for every canonical scalar x (value below L): Add(x, Zero) = x,
Mul(x, One) = x and Mul(x, Zero) = Zero. -/
theorem C9_identities (x : List Nat) (hx : ScalarOK x) (hlt : fromLE x < L) :
    Add x Zero = x ∧ Mul x One = x ∧ Mul x Zero = Zero := by
  obtain ⟨hlen, hb⟩ := hx
  have hx32 : toLE 32 (fromLE x) = x := by rw [← hlen]; exact toLE_fromLE x hb
  have hmod : fromLE x % L = fromLE x := Nat.mod_eq_of_lt hlt
  refine ⟨?_, ?_, ?_⟩
  · show ScMulAdd x One Zero = x
    simp only [ScMulAdd]
    rw [fromLE_One, fromLE_Zero, Nat.mul_one, Nat.add_zero, hmod, hx32]
  · show ScMulAdd x One Zero = x
    simp only [ScMulAdd]
    rw [fromLE_One, fromLE_Zero, Nat.mul_one, Nat.add_zero, hmod, hx32]
  · show ScMulAdd x Zero Zero = Zero
    simp only [ScMulAdd]
    rw [fromLE_Zero, Nat.mul_zero, Nat.add_zero, Nat.zero_mod]
    decide

theorem C9_identities_witness :
    ScalarOK Cofactor ∧ fromLE Cofactor < L ∧
    (Add Cofactor Zero = Cofactor ∧ Mul Cofactor One = Cofactor ∧
     Mul Cofactor Zero = Zero) :=
  ⟨by decide, by decide, C9_identities Cofactor (by decide) (by decide)⟩

theorem or_eq_zero_iff (a b : Nat) : a ||| b = 0 ↔ a = 0 ∧ b = 0 := by
  constructor
  · intro h
    have hbit : ∀ i, (a.testBit i || b.testBit i) = false := by
      intro i
      rw [← Nat.testBit_lor, h, Nat.zero_testBit]
    constructor
    · refine Nat.eq_of_testBit_eq fun i => ?_
      have hi := hbit i
      simp only [Bool.or_eq_false_iff] at hi
      rw [hi.1, Nat.zero_testBit]
    · refine Nat.eq_of_testBit_eq fun i => ?_
      have hi := hbit i
      simp only [Bool.or_eq_false_iff] at hi
      rw [hi.2, Nat.zero_testBit]
  · rintro ⟨rfl, rfl⟩
    rfl

theorem foldl_or_eq_zero_iff (l : List Nat) (a : Nat) :
    l.foldl (fun v w => v ||| w) a = 0 ↔ a = 0 ∧ ∀ x ∈ l, x = 0 := by
  induction l generalizing a with
  | nil => simp
  | cons b l ih =>
    simp only [List.foldl_cons, ih, or_eq_zero_iff, List.forall_mem_cons]
    tauto

theorem foldl_or_lt (l : List Nat) (a : Nat) (ha : a < 256) (h : ∀ x ∈ l, x < 256) :
    l.foldl (fun v w => v ||| w) a < 256 := by
  induction l generalizing a with
  | nil => exact ha
  | cons b l ih =>
    refine ih _ ?_ fun x hx => h x (List.mem_cons_of_mem b hx)
    have hb : b < 256 := h b (List.mem_cons_self b l)
    exact Nat.bitwise_lt (n := 8) ha hb

theorem zipWith_xor_lt (x y : List Nat) (hx : ∀ b ∈ x, b < 256) (hy : ∀ b ∈ y, b < 256) :
    ∀ v ∈ List.zipWith (fun a b => a ^^^ b) x y, v < 256 := by
  induction x generalizing y with
  | nil => simp
  | cons a as ih =>
    cases y with
    | nil => simp
    | cons c cs =>
      simp only [List.zipWith_cons_cons, List.forall_mem_cons]
      refine ⟨?_, ?_⟩
      · exact Nat.bitwise_lt (n := 8) (hx a (List.mem_cons_self a as))
          (hy c (List.mem_cons_self c cs))
      · exact ih cs (fun b hb => hx b (List.mem_cons_of_mem a hb))
          fun b hb => hy b (List.mem_cons_of_mem c hb)

theorem zipWith_xor_all_zero_iff (x y : List Nat) (hlen : x.length = y.length) :
    (∀ v ∈ List.zipWith (fun a b => a ^^^ b) x y, v = 0) ↔ x = y := by
  induction x generalizing y with
  | nil =>
    cases y with
    | nil => simp
    | cons c cs => simp at hlen
  | cons a as ih =>
    cases y with
    | nil => simp at hlen
    | cons c cs =>
      simp only [List.zipWith_cons_cons, List.forall_mem_cons]
      rw [Nat.xor_eq_zero, ih cs (by simpa using hlen), List.cons.injEq]

set_option maxRecDepth 4000 in
theorem constantTimeByteEq_cases :
    ∀ w : Nat, w < 256 → constantTimeByteEq w 0 = if w = 0 then 1 else 0 := by decide

theorem constantTimeCompare_eq_one_iff (x y : List Nat)
    (hx : ∀ b ∈ x, b < 256) (hy : ∀ b ∈ y, b < 256) (hlen : x.length = y.length) :
    (constantTimeCompare x y = 1 ↔ x = y) := by
  rw [constantTimeCompare, if_pos hlen]
  set v := (List.zipWith (fun a b => a ^^^ b) x y).foldl (fun v w => v ||| w) 0 with hvdef
  have hvlt : v < 256 := foldl_or_lt _ 0 (by omega) (zipWith_xor_lt x y hx hy)
  have hv : v = 0 ↔ x = y := by
    rw [hvdef, foldl_or_eq_zero_iff, ← zipWith_xor_all_zero_iff x y hlen]
    simp
  rw [constantTimeByteEq_cases v hvlt, ← hv]
  by_cases h0 : v = 0 <;> simp [h0]

/-- Claim C5: Equal(x, y) is true iff x and y agree on all 32 bytes. -/
theorem C5_equal_iff (x y : List Nat) (hx : ScalarOK x) (hy : ScalarOK y) :
    (Equal x y = true ↔ x = y) := by
  rw [Equal, decide_eq_true_eq]
  rw [constantTimeCompare_eq_one_iff y x hy.2 hx.2 (hy.1.trans hx.1.symm)]
  exact eq_comm

theorem C5_equal_iff_witness :
    ScalarOK NegOne ∧ ScalarOK Lbytes ∧ (Equal NegOne Lbytes = true ↔ NegOne = Lbytes) :=
  ⟨by decide, by decide, C5_equal_iff NegOne Lbytes (by decide) (by decide)⟩

theorem Prune_explicit (b0 b1 b2 b3 b4 b5 b6 b7 b8 b9 b10 b11 b12 b13 b14 b15 b16 b17 b18 b19 b20 b21 b22 b23 b24 b25 b26 b27 b28 b29 b30 b31 : Nat) :
    Prune [b0, b1, b2, b3, b4, b5, b6, b7, b8, b9, b10, b11, b12, b13, b14, b15, b16, b17, b18, b19, b20, b21, b22, b23, b24, b25, b26, b27, b28, b29, b30, b31] =
      [b0 &&& 248, b1, b2, b3, b4, b5, b6, b7, b8, b9, b10, b11, b12, b13, b14, b15, b16, b17, b18, b19, b20, b21, b22, b23, b24, b25, b26, b27, b28, b29, b30, b31 &&& 127 ||| 64] := by
  rfl

set_option maxRecDepth 4000 in
theorem prune_byte0_facts : ∀ b : Nat, b < 256 →
    (b &&& 248) % 8 = 0 ∧ b &&& 248 < 256 := by decide

set_option maxRecDepth 4000 in
theorem prune_byte31_facts : ∀ b : Nat, b < 256 →
    64 ≤ b &&& 127 ||| 64 ∧ b &&& 127 ||| 64 < 128 := by decide

set_option maxRecDepth 4000 in
theorem prune_byte0_idem : ∀ b : Nat, b < 256 →
    (b &&& 248) &&& 248 = b &&& 248 := by decide

set_option maxRecDepth 4000 in
theorem prune_byte31_idem : ∀ b : Nat, b < 256 →
    ((b &&& 127 ||| 64) &&& 127) ||| 64 = b &&& 127 ||| 64 := by decide

/-- Claim C7: for every 32-byte input, the value of Prune(x) is congruent to
0 mod 8 (low 3 bits of byte 0 cleared) and its bit length is exactly 255
(bit 7 of byte 31 cleared, bit 6 of byte 31 set), i.e. it lies in
[2^254, 2^255). -/
theorem C7_prune_range (b0 b1 b2 b3 b4 b5 b6 b7 b8 b9 b10 b11 b12 b13 b14 b15 b16 b17 b18 b19 b20 b21 b22 b23 b24 b25 b26 b27 b28 b29 b30 b31 : Nat)
    (hb : ∀ b ∈ [b0, b1, b2, b3, b4, b5, b6, b7, b8, b9, b10, b11, b12, b13, b14, b15, b16, b17, b18, b19, b20, b21, b22, b23, b24, b25, b26, b27, b28, b29, b30, b31], b < 256) :
    fromLE (Prune [b0, b1, b2, b3, b4, b5, b6, b7, b8, b9, b10, b11, b12, b13, b14, b15, b16, b17, b18, b19, b20, b21, b22, b23, b24, b25, b26, b27, b28, b29, b30, b31]) % 8 = 0 ∧
    2 ^ 254 ≤ fromLE (Prune [b0, b1, b2, b3, b4, b5, b6, b7, b8, b9, b10, b11, b12, b13, b14, b15, b16, b17, b18, b19, b20, b21, b22, b23, b24, b25, b26, b27, b28, b29, b30, b31]) ∧
    fromLE (Prune [b0, b1, b2, b3, b4, b5, b6, b7, b8, b9, b10, b11, b12, b13, b14, b15, b16, b17, b18, b19, b20, b21, b22, b23, b24, b25, b26, b27, b28, b29, b30, b31]) < 2 ^ 255 := by
  simp only [List.forall_mem_cons] at hb
  obtain ⟨h0, h1, h2, h3, h4, h5, h6, h7, h8, h9, h10, h11, h12, h13, h14, h15, h16, h17, h18, h19, h20, h21, h22, h23, h24, h25, h26, h27, h28, h29, h30, h31, -⟩ := hb
  have p0 := prune_byte0_facts b0 h0
  have p31 := prune_byte31_facts b31 h31
  rw [Prune_explicit]
  simp only [fromLE]
  omega

theorem C7_prune_range_witness :
    (∀ b ∈ ([0, 0, 0, 0, 0, 0, 0, 0, 0, 0, 0, 0, 0, 0, 0, 0, 0, 0, 0, 0, 0, 0, 0, 0, 0, 0, 0, 0, 0, 0, 0, 0] : List Nat), b < 256) ∧
    (fromLE (Prune [0, 0, 0, 0, 0, 0, 0, 0, 0, 0, 0, 0, 0, 0, 0, 0, 0, 0, 0, 0, 0, 0, 0, 0, 0, 0, 0, 0, 0, 0, 0, 0]) % 8 = 0 ∧
     2 ^ 254 ≤ fromLE (Prune [0, 0, 0, 0, 0, 0, 0, 0, 0, 0, 0, 0, 0, 0, 0, 0, 0, 0, 0, 0, 0, 0, 0, 0, 0, 0, 0, 0, 0, 0, 0, 0]) ∧
     fromLE (Prune [0, 0, 0, 0, 0, 0, 0, 0, 0, 0, 0, 0, 0, 0, 0, 0, 0, 0, 0, 0, 0, 0, 0, 0, 0, 0, 0, 0, 0, 0, 0, 0]) < 2 ^ 255) :=
  ⟨by decide, C7_prune_range 0 0 0 0 0 0 0 0 0 0 0 0 0 0 0 0 0 0 0 0 0 0 0 0 0 0 0 0 0 0 0 0 (by decide)⟩

/-- Claim C8: Prune is idempotent: applying it twice to a 32-byte input yields
the same bytes as applying it once. -/
theorem C8_prune_idempotent (b0 b1 b2 b3 b4 b5 b6 b7 b8 b9 b10 b11 b12 b13 b14 b15 b16 b17 b18 b19 b20 b21 b22 b23 b24 b25 b26 b27 b28 b29 b30 b31 : Nat)
    (hb : ∀ b ∈ [b0, b1, b2, b3, b4, b5, b6, b7, b8, b9, b10, b11, b12, b13, b14, b15, b16, b17, b18, b19, b20, b21, b22, b23, b24, b25, b26, b27, b28, b29, b30, b31], b < 256) :
    Prune (Prune [b0, b1, b2, b3, b4, b5, b6, b7, b8, b9, b10, b11, b12, b13, b14, b15, b16, b17, b18, b19, b20, b21, b22, b23, b24, b25, b26, b27, b28, b29, b30, b31]) = Prune [b0, b1, b2, b3, b4, b5, b6, b7, b8, b9, b10, b11, b12, b13, b14, b15, b16, b17, b18, b19, b20, b21, b22, b23, b24, b25, b26, b27, b28, b29, b30, b31] := by
  simp only [List.forall_mem_cons] at hb
  obtain ⟨h0, h1, h2, h3, h4, h5, h6, h7, h8, h9, h10, h11, h12, h13, h14, h15, h16, h17, h18, h19, h20, h21, h22, h23, h24, h25, h26, h27, h28, h29, h30, h31, -⟩ := hb
  rw [Prune_explicit, Prune_explicit, prune_byte0_idem b0 h0, prune_byte31_idem b31 h31]

theorem C8_prune_idempotent_witness :
    (∀ b ∈ ([0, 0, 0, 0, 0, 0, 0, 0, 0, 0, 0, 0, 0, 0, 0, 0, 0, 0, 0, 0, 0, 0, 0, 0, 0, 0, 0, 0, 0, 0, 0, 0] : List Nat), b < 256) ∧
    Prune (Prune [0, 0, 0, 0, 0, 0, 0, 0, 0, 0, 0, 0, 0, 0, 0, 0, 0, 0, 0, 0, 0, 0, 0, 0, 0, 0, 0, 0, 0, 0, 0, 0]) = Prune [0, 0, 0, 0, 0, 0, 0, 0, 0, 0, 0, 0, 0, 0, 0, 0, 0, 0, 0, 0, 0, 0, 0, 0, 0, 0, 0, 0, 0, 0, 0, 0] :=
  ⟨by decide, C8_prune_idempotent 0 0 0 0 0 0 0 0 0 0 0 0 0 0 0 0 0 0 0 0 0 0 0 0 0 0 0 0 0 0 0 0 (by decide)⟩

/-- Claim C10: Prune modifies only byte 0 and byte 31: for every input, the
bytes at positions 1 through 30 are unchanged. -/
theorem C10_prune_frame (z : List Nat) (i : Nat) (hi1 : 1 ≤ i) (hi2 : i ≤ 30) :
    (Prune z)[i]? = z[i]? := by
  simp only [Prune]
  rw [List.getElem?_set_ne (by omega), List.getElem?_set_ne (by omega),
    List.getElem?_set_ne (by omega)]

theorem C10_prune_frame_witness :
    1 ≤ 7 ∧ 7 ≤ 30 ∧ (Prune NegOne)[7]? = NegOne[7]? :=
  ⟨by decide, by decide, C10_prune_frame NegOne 7 (by decide) (by decide)⟩

end ecmath
